import Mathlib

/-!
Verification of the Auto-Kemono-Downloader core against its specification.

The Python sources under `src/` are shallowly embedded as Lean definitions:
dataclasses become structures, dates stay ISO-8601 strings compared with the
lexicographic `LinearOrder String` (Python compares `str` values the same
way), dict lookups with defaults become `Option` fields read with `getD`,
and the mutating loops of `cache.py` / `downloader.py` become pure
functions from the pre-state to the post-state.
-/

namespace AKD

/-- Python truthiness of a string: `""` is falsy, all other strings truthy. -/
def strTruthy (s : String) : Bool := decide (s ≠ "")

/-- Python truthiness of an `Optional[str]`: `None` and `""` are falsy. -/
def optTruthy : Option String → Bool
  | none => false
  | some s => decide (s ≠ "")

/-- Python `<` on `str`: code-point lexicographic comparison, embedded as the
lexicographic order on the strings' character lists. -/
def pyLt (a b : String) : Prop := a.data < b.data

/-- Python `<=` on `str` (code-point lexicographic). -/
def pyLe (a b : String) : Prop := a.data ≤ b.data

instance (a b : String) : Decidable (pyLt a b) :=
  inferInstanceAs (Decidable (a.data < b.data))

instance (a b : String) : Decidable (pyLe a b) :=
  inferInstanceAs (Decidable (a.data ≤ b.data))

/-- One attachment descriptor `{name, path}` (`src/src/models.py`, the shape of
`Post.file` and the elements of `Post.attachments`). -/
structure FileDesc where
  name : Option String := none
  path : Option String := none
  deriving DecidableEq, Repr

/-- `src/src/models.py` dataclass `Post`.  The opaque pass-through dict
`embed` is modelled as a key/value list. -/
structure Post where
  id : String
  user : String
  service : String
  title : String
  content : String
  embed : List (String × String)
  shared_file : Bool
  added : String
  published : String
  edited : Option String
  file : Option FileDesc
  attachments : List FileDesc
  done : Bool := false
  failed_files : List String := []
  deriving DecidableEq, Repr

/-- `src/src/models.py` dataclass `Artist` (the fields the claims use; the
`timer`/`config` dicts are opaque key/value lists, `filter` is added later
with the filter model). -/
structure Artist where
  id : String
  service : String
  user_id : String
  name : String
  url : String
  «alias» : String := ""
  last_date : Option String := none
  ignore : Bool := false
  completed : Bool := false
  deriving DecidableEq, Repr

/-- The per-post record invariant stated by the spec (§3, Post):
`done ⇒ failed_files = ∅`. -/
def postInv (p : Post) : Prop := p.done = true → p.failed_files = []

instance (p : Post) : Decidable (postInv p) := by unfold postInv; infer_instance

namespace Cache

/-- `src/src/cache.py` `Cache.update_post`: walk the list, mutate the first
post whose id matches (`done` always, `failed_files`/`content` only when the
argument is not `None`), `break` afterwards. -/
def update_post (post_id : String) (done : Bool) (failed_files : Option (List String))
    (content : Option String) : List Post → List Post
  | [] => []
  | p :: rest =>
    if p.id = post_id then
      { p with done := done,
               failed_files := failed_files.getD p.failed_files,
               content := content.getD p.content } :: rest
    else p :: update_post post_id done failed_files content rest

/-- `src/src/cache.py` `Cache.reset_post`: `update_post(id, post_id, done=False,
failed_files=[])`. -/
def reset_post (post_id : String) (posts : List Post) : List Post :=
  update_post post_id false (some []) none posts

/-- `src/src/cache.py` `Cache.mark_old_done`: set `done=True` on every post
with `published <= before_date`; `failed_files` is left untouched. -/
def mark_old_done (before_date : String) (posts : List Post) : List Post :=
  posts.map fun p => if pyLe p.published before_date then { p with done := true } else p

/-- A post reset to undone, as the body of `Cache.reset_after_date` writes it:
`done = False`, `failed_files = []`. -/
def resetOne (p : Post) : Post := { p with done := false, failed_files := [] }

/-- `src/src/cache.py` `Cache.reset_after_date`: skip posts with falsy
`published`; with a falsy date reset every `done` post, otherwise reset the
`done` posts with `published > after_date`; return the new list and the count
of posts reset. -/
def reset_after_date (after_date : Option String) : List Post → List Post × Nat
  | [] => ([], 0)
  | p :: rest =>
    let r := reset_after_date after_date rest
    if !strTruthy p.published then (p :: r.1, r.2)
    else if !optTruthy after_date then
      if p.done then (resetOne p :: r.1, r.2 + 1) else (p :: r.1, r.2)
    else if decide (pyLt (after_date.getD "") p.published) && p.done then
      (resetOne p :: r.1, r.2 + 1)
    else (p :: r.1, r.2)

/-- The condition under which `reset_after_date` touches a post, read off the
source: truthy `published`, `done` set, and (when the date argument is truthy)
`published > after_date`. -/
def resetCond (after_date : Option String) (p : Post) : Bool :=
  strTruthy p.published && p.done &&
    (!optTruthy after_date || decide (pyLt (after_date.getD "") p.published))

end Cache

section CacheLemmas

theorem reset_after_date_cons (after_date : Option String) (p : Post) (rest : List Post) :
    Cache.reset_after_date after_date (p :: rest) =
      ((if Cache.resetCond after_date p then Cache.resetOne p else p) ::
          (Cache.reset_after_date after_date rest).1,
        (Cache.reset_after_date after_date rest).2 +
          (if Cache.resetCond after_date p then 1 else 0)) := by
  simp only [Cache.reset_after_date, Cache.resetCond]
  by_cases hpub : strTruthy p.published = true
  · by_cases htr : optTruthy after_date = true
    · by_cases hgt : pyLt (after_date.getD "") p.published
      · by_cases hd : p.done = true <;> simp [hpub, htr, hgt, hd]
      · by_cases hd : p.done = true <;> simp [hpub, htr, hgt, hd]
    · by_cases hd : p.done = true <;> simp [hpub, htr, hd]
  · simp [hpub]

theorem reset_after_date_fst (after_date : Option String) (posts : List Post) :
    (Cache.reset_after_date after_date posts).1 =
      posts.map (fun p => if Cache.resetCond after_date p then Cache.resetOne p else p) := by
  induction posts with
  | nil => rfl
  | cons p rest ih => rw [reset_after_date_cons]; simp [ih]

theorem reset_after_date_snd (after_date : Option String) (posts : List Post) :
    (Cache.reset_after_date after_date posts).2 = posts.countP (Cache.resetCond after_date) := by
  induction posts with
  | nil => rfl
  | cons p rest ih =>
    rw [reset_after_date_cons]
    simp only [List.countP_cons, ih]

end CacheLemmas

/-- A concrete post with a failed file and `done = False`: the input on which
`reset_after_date(None)` does not reset the post. -/
def pendingFailedPost : Post :=
  { id := "p1", user := "1", service := "patreon", title := "t", content := "",
    embed := [], shared_file := false, added := "", published := "2024-01-01T00:00:00",
    edited := none, file := none, attachments := [],
    done := false, failed_files := ["a.jpg"] }

/-- Claim C6, counterexample: `reset_after_date` with a null date leaves a post
with `done=false` and non-empty `failed_files` completely untouched (it only
resets posts whose `done` flag is set), so it does not "reset every post in
the artist's cache to undone (done=false, failed_files empty)" and reports 0
posts reset. -/
theorem c6_counterexample :
    Cache.reset_after_date none [pendingFailedPost] = ([pendingFailedPost], 0) ∧
      pendingFailedPost.failed_files = ["a.jpg"] := by
  constructor
  · rfl
  · rfl

theorem update_post_inv (pid : String) (d : Bool) (ff : Option (List String))
    (c : Option String) (posts : List Post) :
    (∀ p ∈ posts, postInv p) → (d = true → ff = some []) →
    ∀ p ∈ Cache.update_post pid d ff c posts, postInv p := by
  induction posts with
  | nil => intro _ _ p hp; cases hp
  | cons q rest ih =>
    intro hinv hd
    simp only [Cache.update_post]
    by_cases hq : q.id = pid
    · rw [if_pos hq]
      intro p hp
      rcases List.mem_cons.mp hp with hp | hp
      · subst hp
        intro hdone
        simp [hd hdone]
      · exact hinv p (List.mem_cons_of_mem q hp)
    · rw [if_neg hq]
      intro p hp
      rcases List.mem_cons.mp hp with hp | hp
      · subst hp
        exact hinv p (List.mem_cons_self p rest)
      · exact ih (fun r hr => hinv r (List.mem_cons_of_mem q hr)) hd p hp

/-- Claim C5, counterexample: `Cache.mark_old_done` violates the invariant
`done ⇒ failed_files = ∅`.  On a cached list holding one post with
`done=false` and `failed_files=["a.jpg"]`, marking old posts done (the post's
`published` is ≤ the cutoff) stores the post with `done=true` while keeping
its non-empty `failed_files`. -/
theorem c5_counterexample :
    (∀ p ∈ [pendingFailedPost], postInv p) ∧
      ¬ (∀ p ∈ Cache.mark_old_done "2024-02-01" [pendingFailedPost], postInv p) := by
  constructor
  · decide
  · decide

/-- Claim C5 (amended): `Cache.update_post` preserves the per-post invariant
`done ⇒ failed_files = ∅` whenever its `failed_files` argument is given and
empty when `done=true` (which is how the downloader calls it), and
`Cache.reset_post` and `Cache.reset_after_date` always preserve it, clearing
`failed_files` whenever they reset `done` to false.  `Cache.mark_old_done`,
however, sets `done=true` without clearing `failed_files` and so does not
preserve the invariant. -/
theorem c5_cache_invariant_amended :
    (∀ (posts : List Post) (pid : String) (d : Bool) (ff : Option (List String))
        (c : Option String), (∀ p ∈ posts, postInv p) → (d = true → ff = some []) →
        ∀ p ∈ Cache.update_post pid d ff c posts, postInv p) ∧
      (∀ (posts : List Post) (pid : String), (∀ p ∈ posts, postInv p) →
        ∀ p ∈ Cache.reset_post pid posts, postInv p) ∧
      (∀ (posts : List Post) (ad : Option String), (∀ p ∈ posts, postInv p) →
        ∀ p ∈ (Cache.reset_after_date ad posts).1, postInv p) := by
  refine ⟨fun posts pid d ff c hinv hd => update_post_inv pid d ff c posts hinv hd,
    fun posts pid hinv => update_post_inv pid false (some []) none posts hinv (by simp),
    fun posts ad hinv => ?_⟩
  rw [reset_after_date_fst]
  intro p hp
  rcases List.mem_map.mp hp with ⟨q, hq, hqp⟩
  by_cases hc : Cache.resetCond ad q
  · rw [if_pos hc] at hqp
    subst hqp
    intro h
    cases h
  · rw [if_neg hc] at hqp
    subst hqp
    exact hinv q hq

/-- Claim C6 (amended): `reset_after_date(artist_id, date)` resets exactly the
posts that are currently `done` and have a truthy `published` field — all of
them when the date is null, those with `published > date` otherwise — setting
`done=false` and clearing `failed_files`, leaves every other post unchanged,
and returns the number of posts reset. -/
theorem c6_reset_after_date_amended (after_date : Option String) (posts : List Post) :
    (Cache.reset_after_date after_date posts).1 =
        posts.map (fun p => if Cache.resetCond after_date p then Cache.resetOne p else p) ∧
      (Cache.reset_after_date after_date posts).2 = posts.countP (Cache.resetCond after_date) ∧
      (∀ p, Cache.resetCond after_date p = true →
        (Cache.resetOne p).done = false ∧ (Cache.resetOne p).failed_files = []) ∧
      (∀ p, Cache.resetCond after_date p =
        (strTruthy p.published && p.done &&
          (!optTruthy after_date || decide (pyLt (after_date.getD "") p.published)))) :=
  ⟨reset_after_date_fst after_date posts, reset_after_date_snd after_date posts,
    fun _ _ => ⟨rfl, rfl⟩, fun _ => rfl⟩

/-- One raw post object of the remote list returned by `API.get_all_posts`
(`src/src/downloader.py` reads `post_data['id'|'user'|'service']` directly and
everything else through `.get` with a default, modelled as `Option` fields). -/
structure PostData where
  id : String
  user : String
  service : String
  title : Option String := none
  content : Option String := none
  embed : Option (List (String × String)) := none
  shared_file : Option Bool := none
  added : Option String := none
  published : Option String := none
  edited : Option String := none
  file : Option FileDesc := none
  attachments : Option (List FileDesc) := none
  deriving DecidableEq, Repr

/-- The dedup step of `update_posts_basic` (`src/src/downloader.py` lines
344-348): a `reduce` that keeps only the first occurrence of each id. -/
def dedupById (l : List PostData) : List PostData :=
  l.foldl (fun acc x => if acc.any (fun d => d.id = x.id) then acc else acc ++ [x]) []

/-- The `Post(...)` constructed by `update_posts_basic` for a remote object
whose id is not in the cache (`src/src/downloader.py` lines 369-383), before
the watermark rule is applied. -/
def mkNewPost (pd : PostData) : Post :=
  { id := pd.id, user := pd.user, service := pd.service,
    title := pd.title.getD "", content := pd.content.getD "",
    embed := pd.embed.getD [], shared_file := pd.shared_file.getD false,
    added := pd.added.getD "", published := pd.published.getD "",
    edited := pd.edited, file := pd.file,
    attachments := pd.attachments.getD [],
    done := false, failed_files := [] }

/-- The watermark rule of `update_posts_basic` (`src/src/downloader.py` line
393): a newly created post starts `done=true` iff the artist is newly adopted
(`is_new_artist`), `artist.last_date` is truthy and the post's `published` is
`<=` it. -/
def newPostDone (is_new_artist : Bool) (last_date : Option String) (published : String) : Bool :=
  is_new_artist && optTruthy last_date && decide (pyLe published (last_date.getD ""))

/-- The merge loop of `update_posts_basic` (`src/src/downloader.py` lines
354-398): an id already in the cache keeps the cached record
(`existing_posts_map` is a dict built in list order, so of duplicate cached
ids the last wins, hence `reverse.find?`); unseen ids become new posts,
counted as new unless the watermark rule marked them done. -/
def mergePosts (is_new_artist : Bool) (last_date : Option String) (cached : List Post) :
    List PostData → List Post × Nat
  | [] => ([], 0)
  | pd :: rest =>
    let r := mergePosts is_new_artist last_date cached rest
    match cached.reverse.find? (fun p => p.id = pd.id) with
    | some p => (p :: r.1, r.2)
    | none =>
      let base := mkNewPost pd
      if newPostDone is_new_artist last_date base.published then
        ({ base with done := true } :: r.1, r.2)
      else (base :: r.1, r.2 + 1)

/-- `src/src/downloader.py` `Downloader.update_posts_basic`, as a function of
the stop flag, the artist, the fetched `profile['post_count']`, the cached
post list and the raw remote list.  The result pair is (the artist's cached
post list after the call, the returned bool). -/
def update_posts_basic (stopFlag : Bool) (artist : Artist) (post_count : Nat)
    (cached_posts : List Post) (remote : List PostData) : List Post × Bool :=
  if stopFlag then (cached_posts, false)
  else if artist.completed || artist.ignore then (cached_posts, false)
  else if post_count = cached_posts.length then (cached_posts, false)
  else
    let deduped := dedupById remote
    if deduped.length = cached_posts.length then (cached_posts, false)
    else
      ((mergePosts (cached_posts.length == 0) artist.last_date cached_posts deduped).1, true)

section MergeLemmas

theorem mergePosts_mem (ina : Bool) (ld : Option String) (cached : List Post)
    (l : List PostData) :
    ∀ p ∈ (mergePosts ina ld cached l).1,
      p ∈ cached ∨
        ((∀ q ∈ cached, q.id ≠ p.id) ∧ p.done = newPostDone ina ld p.published ∧
          p.failed_files = []) := by
  induction l with
  | nil => intro p hp; cases hp
  | cons pd rest ih =>
    intro p hp
    simp only [mergePosts] at hp
    cases hf : cached.reverse.find? (fun q => q.id = pd.id) with
    | some q =>
      rw [hf] at hp
      rcases List.mem_cons.mp hp with hp | hp
      · subst hp
        exact Or.inl (List.mem_reverse.mp (List.mem_of_find?_eq_some hf))
      · exact ih p hp
    | none =>
      rw [hf] at hp
      have hnone : ∀ q ∈ cached, q.id ≠ pd.id := by
        intro q hq
        have := List.find?_eq_none.mp hf q (List.mem_reverse.mpr hq)
        simpa using this
      by_cases hw : newPostDone ina ld (mkNewPost pd).published = true
      · rw [if_pos hw] at hp
        rcases List.mem_cons.mp hp with hp | hp
        · subst hp
          refine Or.inr ⟨hnone, ?_, rfl⟩
          simpa using hw.symm
        · exact ih p hp
      · rw [if_neg hw] at hp
        rcases List.mem_cons.mp hp with hp | hp
        · subst hp
          exact Or.inr ⟨hnone, by rw [(Bool.not_eq_true _).mp hw]; rfl, rfl⟩
        · exact ih p hp

theorem mergePosts_keeps_cached (ina : Bool) (ld : Option String) (cached : List Post)
    (hnd : (cached.map Post.id).Nodup) (p : Post) (hp : p ∈ cached) (l : List PostData) :
    (∃ pd ∈ l, pd.id = p.id) → p ∈ (mergePosts ina ld cached l).1 := by
  induction l with
  | nil => rintro ⟨pd, hpd, -⟩; cases hpd
  | cons pd rest ih =>
    rintro ⟨pd', hpd', hid⟩
    simp only [mergePosts]
    cases hf : cached.reverse.find? (fun q => q.id = pd.id) with
    | some q =>
      rcases List.mem_cons.mp hpd' with h | h
      · -- the head matches p's id: the found cached post must be p itself
        subst h
        have hq : q ∈ cached := List.mem_reverse.mp (List.mem_of_find?_eq_some hf)
        have hqid : q.id = pd'.id := by
          have := List.find?_some hf
          simpa using this
        have : q = p := List.inj_on_of_nodup_map hnd hq hp (by rw [hqid, hid])
        subst this
        exact List.mem_cons_self q _
      · exact List.mem_cons_of_mem q (ih ⟨pd', h, hid⟩)
    | none =>
      rcases List.mem_cons.mp hpd' with h | h
      · -- impossible: find? missed a cached post with this id
        subst h
        have := List.find?_eq_none.mp hf p (List.mem_reverse.mpr hp)
        simp [hid] at this
      · by_cases hw : newPostDone ina ld (mkNewPost pd).published = true
        · rw [if_pos hw]
          exact List.mem_cons_of_mem _ (ih ⟨pd', h, hid⟩)
        · rw [if_neg hw]
          exact List.mem_cons_of_mem _ (ih ⟨pd', h, hid⟩)

theorem update_posts_basic_fst_cases (stopFlag : Bool) (artist : Artist) (post_count : Nat)
    (cached : List Post) (remote : List PostData) :
    (update_posts_basic stopFlag artist post_count cached remote).1 = cached ∨
      (update_posts_basic stopFlag artist post_count cached remote).1 =
        (mergePosts (cached.length == 0) artist.last_date cached (dedupById remote)).1 := by
  simp only [update_posts_basic]
  split_ifs <;> simp

end MergeLemmas

/-- Claim C2 (confirmed): in `update_posts_basic`, when the cached list was
previously empty and the artist's `last_date` is set (truthy), every post in
the persisted merged list with `published ≤ last_date` has `done=true`; when
the cached list was non-empty, every newly added post (id not in the cache)
has `done=false`, whatever `last_date` is. -/
theorem c2_watermark_new_artists_only (stopFlag : Bool) (artist : Artist)
    (post_count : Nat) (cached : List Post) (remote : List PostData) :
    (cached = [] → optTruthy artist.last_date = true →
      ∀ p ∈ (update_posts_basic stopFlag artist post_count cached remote).1,
        pyLe p.published (artist.last_date.getD "") → p.done = true) ∧
    (cached ≠ [] →
      ∀ p ∈ (update_posts_basic stopFlag artist post_count cached remote).1,
        (∀ q ∈ cached, q.id ≠ p.id) → p.done = false) := by
  rcases update_posts_basic_fst_cases stopFlag artist post_count cached remote with h | h
  · constructor
    · intro hc _ p hp
      rw [h, hc] at hp
      cases hp
    · intro _ p hp hq
      rw [h] at hp
      exact absurd rfl (hq p hp)
  · constructor
    · intro hc htr p hp hle
      rw [h, hc] at hp
      rcases mergePosts_mem _ _ _ _ p hp with hmem | ⟨-, hd, -⟩
      · cases hmem
      · rw [hd]
        subst hc
        simp [newPostDone, htr, hle]
    · intro hc p hp hq
      rw [h] at hp
      rcases mergePosts_mem _ _ _ _ p hp with hmem | ⟨-, hd, -⟩
      · exact absurd rfl (hq p hmem)
      · rw [hd]
        have : (cached.length == 0) = false := by
          cases cached with
          | nil => exact absurd rfl hc
          | cons a t => rfl
        simp [newPostDone, this]

/-- The artist of spec scenario S1: freshly adopted (empty cache) with a
watermark already set. -/
def freshArtist : Artist :=
  { id := "patreon_1", service := "patreon", user_id := "1", name := "A", url := "",
    last_date := some "2024-06-01T00:00:00" }

/-- A remote post older than `freshArtist`'s watermark. -/
def oldRemotePost : PostData :=
  { id := "a", user := "1", service := "patreon", published := some "2024-05-01T00:00:00" }

/-- Claim C4, counterexample: on a previously empty cache with
`last_date = "2024-06-01T00:00:00"` set, the id `"a"` is seen only remotely,
yet `update_posts_basic` persists it with `done=true` (the new-artist
watermark rule), not `done=false` as the claim states for every remote-only
id. -/
theorem c4_counterexample :
    (update_posts_basic false freshArtist 1 [] [oldRemotePost]).1.map Post.done = [true] ∧
      (update_posts_basic false freshArtist 1 [] [oldRemotePost]).1.map Post.id = ["a"] := by
  constructor
  · rfl
  · rfl

/-- Claim C4 (amended): for every post id present both in the pre-merge cached
list (whose ids are assumed distinct — they key a Python dict) and in the
deduplicated remote list, the list persisted by `update_posts_basic` contains
the cached post object unchanged, in particular `done` and `failed_files` are
preserved bit-for-bit; every id seen only remotely is added as a new post with
empty `failed_files` and `done=false`, except that when the pre-merge cache
was empty and the artist's `last_date` is set, a new post with
`published ≤ last_date` is created with `done=true` (the watermark rule,
`newPostDone`). -/
theorem c4_merge_preserves_status_amended (stopFlag : Bool) (artist : Artist)
    (post_count : Nat) (cached : List Post) (remote : List PostData) :
    (∀ p ∈ cached, (cached.map Post.id).Nodup →
      (∃ pd ∈ dedupById remote, pd.id = p.id) →
      p ∈ (update_posts_basic stopFlag artist post_count cached remote).1) ∧
    (∀ p ∈ (update_posts_basic stopFlag artist post_count cached remote).1,
      (∀ q ∈ cached, q.id ≠ p.id) →
      p.done = newPostDone (cached.length == 0) artist.last_date p.published ∧
        p.failed_files = []) := by
  rcases update_posts_basic_fst_cases stopFlag artist post_count cached remote with h | h
  · constructor
    · intro p hp _ _
      rw [h]; exact hp
    · intro p hp hq
      rw [h] at hp
      exact absurd rfl (hq p hp)
  · constructor
    · intro p hp hnd hex
      rw [h]
      exact mergePosts_keeps_cached _ _ _ hnd p hp _ hex
    · intro p hp hq
      rw [h] at hp
      rcases mergePosts_mem _ _ _ _ p hp with hmem | ⟨-, hd, hff⟩
      · exact absurd rfl (hq p hmem)
      · exact ⟨hd, hff⟩

/-- `src/src/models.py` dataclass `DownloadPostResult`. -/
structure DownloadPostResult where
  service : String
  post_id : String
  success : Bool
  files_downloaded : Nat := 0
  files_failed : Nat := 0
  failed_files : List String := []
  deriving DecidableEq, Repr

/-- `src/src/models.py` dataclass `DownloadPostsResult`. -/
structure DownloadPostsResult where
  success : Bool
  posts_downloaded : Nat := 0
  posts_failed : Nat := 0
  failed_posts : List DownloadPostResult := []
  deriving DecidableEq, Repr

/-- `DownloadPostsResult.empty()`: the successful result used when there are
no posts to process. -/
def DownloadPostsResult.empty : DownloadPostsResult :=
  { success := true, posts_downloaded := 0, posts_failed := 0, failed_posts := [] }

/-- `src/src/models.py` dataclass `DownloadArtistResult` (a
`DownloadPostsResult` with an `artist_id`, flattened here). -/
structure DownloadArtistResult where
  artist_id : String
  success : Bool
  posts_downloaded : Nat := 0
  posts_failed : Nat := 0
  failed_posts : List DownloadPostResult := []
  deriving DecidableEq, Repr

/-- `DownloadArtistResult.skipped(artist_id)` (`src/src/models.py` lines
252-261). -/
def DownloadArtistResult.skipped (artist_id : String) : DownloadArtistResult :=
  { artist_id := artist_id, success := true, posts_downloaded := 0,
    posts_failed := 0, failed_posts := [] }

/-- `DownloadArtistResult.failed(artist_id)`. -/
def DownloadArtistResult.failedFor (artist_id : String) : DownloadArtistResult :=
  { artist_id := artist_id, success := false, posts_downloaded := 0,
    posts_failed := 0, failed_posts := [] }

/-- The walk of `Downloader._calculate_new_last_date`
(`src/src/downloader.py` lines 541-552): skip posts with
`published ≤ start_date`, stop at the first undone post, otherwise advance
`new_last_date` to the post's `published` and continue. -/
def walkLoop (start : String) (acc : String) : List Post → String
  | [] => acc
  | p :: rest =>
    if pyLe p.published start then walkLoop start acc rest
    else if !p.done then acc
    else walkLoop start p.published rest

/-- `src/src/downloader.py` `Downloader._calculate_new_last_date`: sort the
cached posts by `published` ascending (Python's stable sort), walk them from
the current `last_date`, and return the reached date unless it equals the
start. -/
def calculate_new_last_date (last_date : Option String) (all_posts : List Post) :
    Option String :=
  if all_posts.isEmpty then none
  else
    let sorted := all_posts.mergeSort (fun p q => decide (pyLe p.published q.published))
    let start := last_date.getD ""
    let result := walkLoop start start sorted
    if result = start then none else some result

/-- The `last_date` update of `download_artist` (`src/src/downloader.py` lines
81-88): persist the recomputed date only when truthy and strictly greater
than the current `last_date or ""`. -/
def updatedArtist (artist : Artist) (finalCache : List Post) : Artist :=
  match calculate_new_last_date artist.last_date finalCache with
  | some d =>
    if strTruthy d && decide (pyLt (artist.last_date.getD "") d) then
      { artist with last_date := some d }
    else artist
  | none => artist

/-- The date-range working set of `download_artist` (`src/src/downloader.py`
lines 58-63): all cached posts with `published > from_date` (when truthy) and
`published ≤ until_date` (when truthy), regardless of `done`. -/
def selectRange (from_date until_date : Option String) (all_posts : List Post) : List Post :=
  all_posts.filter fun p =>
    (!optTruthy from_date || decide (pyLt (from_date.getD "") p.published)) &&
    (!optTruthy until_date || decide (pyLe p.published (until_date.getD "")))

/-- `src/src/downloader.py` `Downloader.download_artist` with its effects
abstracted: `cacheAfterUpdate` is what `cache.load_posts` returns after
`update_posts_basic`, `undone` what `cache.get_undone` returns, `runPosts`
the outcome of `download_posts` on the working set, and `finalCache` the
cache contents when `_calculate_new_last_date` reads them.  The result pair
is (the returned `DownloadArtistResult`, the artist record after the
`last_date` update). -/
def download_artist (stopFlag : Bool) (artist : Artist)
    (from_date until_date : Option String) (cacheAfterUpdate : List Post)
    (undone : List Post) (runPosts : List Post → DownloadPostsResult)
    (finalCache : List Post) : DownloadArtistResult × Artist :=
  if stopFlag then (DownloadArtistResult.skipped artist.id, artist)
  else if artist.completed || artist.ignore then
    (DownloadArtistResult.skipped artist.id, artist)
  else
    let posts_to_process :=
      if optTruthy from_date || optTruthy until_date then
        selectRange from_date until_date cacheAfterUpdate
      else undone
    let posts_result :=
      if !posts_to_process.isEmpty then runPosts posts_to_process
      else DownloadPostsResult.empty
    ({ artist_id := artist.id, success := posts_result.success,
       posts_downloaded := posts_result.posts_downloaded,
       posts_failed := posts_result.posts_failed,
       failed_posts := posts_result.failed_posts },
      updatedArtist artist finalCache)

section WatermarkLemmas

theorem walkLoop_ge (start : String) (l : List Post) :
    ∀ acc, walkLoop start acc l = acc ∨ pyLt start (walkLoop start acc l) := by
  induction l with
  | nil => intro acc; exact Or.inl rfl
  | cons p rest ih =>
    intro acc
    simp only [walkLoop]
    by_cases h1 : pyLe p.published start
    · rw [if_pos h1]
      exact ih acc
    · rw [if_neg h1]
      by_cases h2 : (!p.done) = true
      · rw [if_pos h2]
        exact Or.inl rfl
      · rw [if_neg h2]
        rcases ih p.published with h | h
        · right
          rw [h]
          exact not_le.mp h1
        · exact Or.inr h

theorem calculate_new_last_date_gt (last_date : Option String) (posts : List Post)
    (d : String) (h : calculate_new_last_date last_date posts = some d) :
    pyLt (last_date.getD "") d := by
  unfold calculate_new_last_date at h
  by_cases he : posts.isEmpty
  · rw [if_pos he] at h
    cases h
  · rw [if_neg he] at h
    simp only at h
    by_cases hr : walkLoop (last_date.getD "") (last_date.getD "")
        (posts.mergeSort fun p q => decide (pyLe p.published q.published)) =
          last_date.getD ""
    · rw [if_pos hr] at h
      cases h
    · rw [if_neg hr] at h
      cases h
      rcases walkLoop_ge (last_date.getD "")
          (posts.mergeSort fun p q => decide (pyLe p.published q.published))
          (last_date.getD "") with hw | hw
      · exact absurd hw hr
      · exact hw

theorem updatedArtist_mono (artist : Artist) (finalCache : List Post) :
    pyLe (artist.last_date.getD "") ((updatedArtist artist finalCache).last_date.getD "") := by
  rcases hc : calculate_new_last_date artist.last_date finalCache with _ | d
  · simp only [updatedArtist, hc]
    exact le_refl _
  · simp only [updatedArtist, hc]
    by_cases h : (strTruthy d && decide (pyLt (artist.last_date.getD "") d)) = true
    · rw [if_pos h]
      exact le_of_lt (of_decide_eq_true ((Bool.and_eq_true _ _).mp h).2)
    · rw [if_neg h]
      exact le_refl _

end WatermarkLemmas

/-- Claim C3 (confirmed): after any run of `download_artist` the artist's
`last_date` is `≥` its value before the run (comparing `last_date or ""` the
way the source does), and `_calculate_new_last_date` — which sorts the cached
posts by `published` ascending, skips posts `≤` the current watermark, walks
the consecutive `done` posts and stops at the first undone one — returns
`some d` only for `d` strictly greater than the current watermark, which is
exactly when `download_artist` persists it. -/
theorem c3_monotone_watermark (stopFlag : Bool) (artist : Artist)
    (from_date until_date : Option String) (cacheAfterUpdate undone : List Post)
    (runPosts : List Post → DownloadPostsResult) (finalCache : List Post) :
    pyLe (artist.last_date.getD "")
        (((download_artist stopFlag artist from_date until_date cacheAfterUpdate
            undone runPosts finalCache).2).last_date.getD "") ∧
      (∀ d, calculate_new_last_date artist.last_date finalCache = some d →
        pyLt (artist.last_date.getD "") d) := by
  constructor
  · unfold download_artist
    split_ifs <;>
      first
        | exact le_refl _
        | exact updatedArtist_mono artist finalCache
  · intro d hd
    exact calculate_new_last_date_gt artist.last_date finalCache d hd

/-- An artist marked `completed`, used to instantiate the skip path. -/
def completedArtist : Artist :=
  { id := "patreon_9", service := "patreon", user_id := "9", name := "S", url := "",
    completed := true }

/-- Claim C9 (confirmed): whenever the stop flag is set or the artist is
marked `completed` or `ignore`, `download_artist` returns
`DownloadArtistResult.skipped`, which has `success=true` and
`posts_downloaded=0`; and a non-skipped run whose working set is empty
returns the very same record, so at the public interface a skipped artist is
indistinguishable from a successful run that had nothing to download. -/
theorem c9_skipped_result (stopFlag : Bool) (artist : Artist)
    (from_date until_date : Option String) (cacheAfterUpdate undone : List Post)
    (runPosts : List Post → DownloadPostsResult) (finalCache : List Post)
    (h : stopFlag = true ∨ artist.completed = true ∨ artist.ignore = true) :
    (download_artist stopFlag artist from_date until_date cacheAfterUpdate undone
        runPosts finalCache).1 = DownloadArtistResult.skipped artist.id ∧
      (DownloadArtistResult.skipped artist.id).success = true ∧
      (DownloadArtistResult.skipped artist.id).posts_downloaded = 0 ∧
      (∀ (a2 : Artist) (cache2 final2 : List Post)
          (run2 : List Post → DownloadPostsResult),
        a2.completed = false → a2.ignore = false →
        (download_artist false a2 none none cache2 [] run2 final2).1 =
          DownloadArtistResult.skipped a2.id) := by
  refine ⟨?_, rfl, rfl, ?_⟩
  · unfold download_artist
    rcases h with h | h | h
    · rw [h]
      rfl
    · rw [h]
      simp
    · rw [h]
      simp
  · intro a2 cache2 final2 run2 hc hi
    unfold download_artist
    rw [hc, hi]
    rfl

/-- Claim C9 witness: the skip path evaluated on a concrete completed artist. -/
theorem c9_witness :
    (download_artist false completedArtist none none [] []
        (fun _ => DownloadPostsResult.empty) []).1 =
      DownloadArtistResult.skipped completedArtist.id ∧
      (DownloadArtistResult.skipped completedArtist.id).success = true ∧
      (DownloadArtistResult.skipped completedArtist.id).posts_downloaded = 0 ∧
      (∀ (a2 : Artist) (cache2 final2 : List Post)
          (run2 : List Post → DownloadPostsResult),
        a2.completed = false → a2.ignore = false →
        (download_artist false a2 none none cache2 [] run2 final2).1 =
          DownloadArtistResult.skipped a2.id) :=
  c9_skipped_result false completedArtist none none [] []
    (fun _ => DownloadPostsResult.empty) [] (Or.inr (Or.inl rfl))

/-- A final cache on which the watermark strictly advances: one done post past
the (empty) current watermark. -/
def donePost : Post :=
  { id := "c", user := "1", service := "patreon", title := "t", content := "",
    embed := [], shared_file := false, added := "", published := "2024-07-01T00:00:00",
    edited := none, file := none, attachments := [], done := true, failed_files := [] }

/-- A fresh artist record with no watermark yet. -/
def nullDateArtist : Artist :=
  { id := "patreon_3", service := "patreon", user_id := "3", name := "N", url := "" }

/-- Claim C3 witness: monotonicity and strictness evaluated on a concrete run
whose final cache holds one done post, so the watermark advances from `""` to
that post's date. -/
theorem c3_witness :
    (pyLe (nullDateArtist.last_date.getD "")
        (((download_artist false nullDateArtist none none [] []
            (fun _ => DownloadPostsResult.empty) [donePost]).2).last_date.getD "") ∧
      (∀ d, calculate_new_last_date nullDateArtist.last_date [donePost] = some d →
        pyLt (nullDateArtist.last_date.getD "") d)) ∧
      pyLt (nullDateArtist.last_date.getD "") "2024-07-01T00:00:00" :=
  ⟨c3_monotone_watermark false nullDateArtist none none [] []
      (fun _ => DownloadPostsResult.empty) [donePost],
    (c3_monotone_watermark false nullDateArtist none none [] []
      (fun _ => DownloadPostsResult.empty) [donePost]).2 "2024-07-01T00:00:00" (by
        simp [calculate_new_last_date, walkLoop, donePost, nullDateArtist, pyLe]
        decide)⟩

/-- `src/src/models.py` dataclass `DownloadTask` (the fields that exist at
enqueue time; status/timestamps/result are runtime bookkeeping that never
enters `__eq__`/`__hash__`). -/
structure DownloadTask where
  artist_id : String
  from_date : Option String := none
  until_date : Option String := none
  task_type : String := "manual"
  deriving DecidableEq, Repr

/-- The equality key of `DownloadTask.__eq__`/`__hash__`
(`src/src/models.py` lines 355-365): `(artist_id, from_date, until_date)` —
`task_type` is ignored. -/
def DownloadTask.key (t : DownloadTask) : String × Option String × Option String :=
  (t.artist_id, t.from_date, t.until_date)

/-- The queue-related state of `src/src/scheduler.py` `Scheduler`:
`task_queue` (a FIFO `Queue`), `queued_tasks` (a Python `set`, so a set of
equality keys), the `active_tasks` dict keyed by artist id, and the bounded
`completed_tasks` list. -/
structure SchedulerState where
  task_queue : List DownloadTask := []
  queued_tasks : Finset (String × Option String × Option String) := ∅
  active_tasks : List (String × DownloadTask) := []
  completed_tasks : List DownloadTask := []
  deriving DecidableEq

namespace Scheduler

/-- `Scheduler._add_task` (`src/src/scheduler.py` lines 114-122): refuse a
task equal (by key) to a queued one, otherwise add it to the set and put it
on the queue; the bool is the return value. -/
def add_task (s : SchedulerState) (t : DownloadTask) : SchedulerState × Bool :=
  if t.key ∈ s.queued_tasks then (s, false)
  else
    ({ s with queued_tasks := insert t.key s.queued_tasks,
              task_queue := s.task_queue ++ [t] }, true)

/-- `Scheduler.queue_manual` (`src/src/scheduler.py` lines 99-103). -/
def queue_manual (s : SchedulerState) (artist_id : String)
    (from_date until_date : Option String) : SchedulerState × Bool :=
  add_task s { artist_id := artist_id, from_date := from_date,
               until_date := until_date, task_type := "manual" }

/-- `Scheduler.queue_batch` (`src/src/scheduler.py` lines 105-112): one
`add_task` per id, counting the additions that succeeded. -/
def queue_batch (s : SchedulerState) (artist_ids : List String) : SchedulerState × Nat :=
  artist_ids.foldl
    (fun acc aid =>
      let r := add_task acc.1 { artist_id := aid, task_type := "manual" }
      (r.1, acc.2 + if r.2 then 1 else 0))
    (s, 0)

/-- `Scheduler._process_queue` (`src/src/scheduler.py` lines 150-165): under
the worker cap, pop the queue head, discard its key from the in-flight set
and record it in the `active_tasks` dict (dict assignment overwrites). -/
def process_queue (max_workers : Nat) (s : SchedulerState) : SchedulerState :=
  if s.active_tasks.length ≥ max_workers then s
  else
    match s.task_queue with
    | [] => s
    | t :: rest =>
      { s with task_queue := rest,
               queued_tasks := s.queued_tasks.erase t.key,
               active_tasks := (t.artist_id, t) ::
                 s.active_tasks.filter fun x => x.1 != t.artist_id }

/-- `Scheduler._task_completed` (`src/src/scheduler.py` lines 195-205): drop
the task from `active_tasks`, append it to the bounded completed list
(cap `max_history = 100`, FIFO eviction). -/
def task_completed (s : SchedulerState) (t : DownloadTask) : SchedulerState :=
  let done_list := s.completed_tasks ++ [t]
  { s with active_tasks := s.active_tasks.filter fun x => x.1 != t.artist_id,
           completed_tasks := if done_list.length > 100 then done_list.drop 1 else done_list }

/-- The queue clearing of `Scheduler.cancel_all_tasks`
(`src/src/scheduler.py` lines 61-68): drain the queue and clear the
in-flight set under the lock. -/
def cancel_all (s : SchedulerState) : SchedulerState :=
  { s with task_queue := [], queued_tasks := ∅ }

end Scheduler

/-- The scheduler's initial state (empty queue, empty in-flight set). -/
def initialState : SchedulerState := {}

/-- The scheduler states reachable from start through the queue-mutating
operations of `src/src/scheduler.py` (`_add_task` covers `queue_manual`,
`queue_batch` and the timer path `_check_scheduled_tasks`, which all enqueue
through it). -/
inductive Reachable : SchedulerState → Prop
  | init : Reachable initialState
  | add {s : SchedulerState} (t : DownloadTask) :
      Reachable s → Reachable (Scheduler.add_task s t).1
  | pop {s : SchedulerState} (max_workers : Nat) :
      Reachable s → Reachable (Scheduler.process_queue max_workers s)
  | complete {s : SchedulerState} (t : DownloadTask) :
      Reachable s → Reachable (Scheduler.task_completed s t)
  | cancel {s : SchedulerState} :
      Reachable s → Reachable (Scheduler.cancel_all s)

/-- The inductive invariant tying the in-flight key set to the queue: the
queue's keys are distinct and `queued_tasks` holds exactly them. -/
def QueueInv (s : SchedulerState) : Prop :=
  (s.task_queue.map DownloadTask.key).Nodup ∧
    ∀ k, k ∈ s.queued_tasks ↔ k ∈ s.task_queue.map DownloadTask.key

theorem queueInv_add (s : SchedulerState) (t : DownloadTask) (h : QueueInv s) :
    QueueInv (Scheduler.add_task s t).1 := by
  rcases h with ⟨hnd, hiff⟩
  unfold Scheduler.add_task
  by_cases hmem : t.key ∈ s.queued_tasks
  · rw [if_pos hmem]
    exact ⟨hnd, hiff⟩
  · rw [if_neg hmem]
    have hnot : t.key ∉ s.task_queue.map DownloadTask.key :=
      fun hc => hmem ((hiff t.key).mpr hc)
    constructor
    · simp only [List.map_append, List.map_cons, List.map_nil]
      rw [List.nodup_append]
      refine ⟨hnd, List.nodup_singleton _, ?_⟩
      intro a ha hb
      rw [List.mem_singleton] at hb
      subst hb
      exact hnot ha
    · intro k
      simp only [Finset.mem_insert, hiff k, List.map_append, List.map_cons,
        List.map_nil, List.mem_append, List.mem_singleton]
      tauto

theorem queueInv_pop (max_workers : Nat) (s : SchedulerState) (h : QueueInv s) :
    QueueInv (Scheduler.process_queue max_workers s) := by
  rcases h with ⟨hnd, hiff⟩
  unfold Scheduler.process_queue
  by_cases hcap : s.active_tasks.length ≥ max_workers
  · rw [if_pos hcap]
    exact ⟨hnd, hiff⟩
  · rw [if_neg hcap]
    cases hq : s.task_queue with
    | nil => exact ⟨by rw [hq] at hnd ⊢; exact hnd, fun k => by rw [hq] at hiff ⊢; exact hiff k⟩
    | cons t rest =>
      rw [hq] at hnd hiff
      simp only [List.map_cons, List.nodup_cons] at hnd
      constructor
      · exact hnd.2
      · intro k
        simp only [Finset.mem_erase]
        constructor
        · rintro ⟨hne, hk⟩
          rcases (List.mem_cons.mp ((hiff k).mp hk)) with h | h
          · exact absurd h hne
          · exact h
        · intro hk
          refine ⟨?_, (hiff k).mpr (List.mem_cons_of_mem _ hk)⟩
          intro he
          subst he
          exact hnd.1 hk

theorem queueInv_reachable {s : SchedulerState} (h : Reachable s) : QueueInv s := by
  induction h with
  | init =>
    refine ⟨List.nodup_nil, fun k => ?_⟩
    simp [initialState]
  | add t _ ih => exact queueInv_add _ t ih
  | pop mw _ ih => exact queueInv_pop mw _ ih
  | complete t _ ih => exact ih
  | cancel _ ih =>
    refine ⟨List.nodup_nil, fun k => ?_⟩
    simp [Scheduler.cancel_all]

/-- Claim C7 (confirmed): in every reachable scheduler state no two tasks in
the pending queue share the equality key `(artist_id, from_date,
until_date)`, and enqueuing a task whose key equals an already-queued task's
key — through `queue_manual` or `queue_batch` — leaves the state unchanged
and is reported as not added (`False` return / 0 added). -/
theorem c7_queue_dedup (s : SchedulerState) (h : Reachable s) :
    (s.task_queue.map DownloadTask.key).Nodup ∧
      (∀ (aid : String) (fd ud : Option String),
        (aid, fd, ud) ∈ s.task_queue.map DownloadTask.key →
        Scheduler.queue_manual s aid fd ud = (s, false)) ∧
      (∀ aid : String, (aid, none, none) ∈ s.task_queue.map DownloadTask.key →
        Scheduler.queue_batch s [aid] = (s, 0)) := by
  rcases queueInv_reachable h with ⟨hnd, hiff⟩
  refine ⟨hnd, ?_, ?_⟩
  · intro aid fd ud hk
    unfold Scheduler.queue_manual Scheduler.add_task
    simp only [DownloadTask.key]
    rw [if_pos ((hiff (aid, fd, ud)).mpr hk)]
  · intro aid hk
    unfold Scheduler.queue_batch
    simp only [List.foldl_cons, List.foldl_nil, Scheduler.add_task, DownloadTask.key]
    rw [if_pos ((hiff (aid, none, none)).mpr hk)]
    rfl

/-- A one-task queue used to exercise the dedup path. -/
def sampleTask : DownloadTask := { artist_id := "patreon_1" }

/-- The reachable state holding exactly `sampleTask`. -/
def sampleState : SchedulerState := (Scheduler.add_task initialState sampleTask).1

/-- Claim C7 witness: the dedup guarantee evaluated on the concrete reachable
state holding one queued task; re-queueing the same key is refused. -/
theorem c7_witness :
    ((sampleState.task_queue.map DownloadTask.key).Nodup ∧
      (∀ (aid : String) (fd ud : Option String),
        (aid, fd, ud) ∈ sampleState.task_queue.map DownloadTask.key →
        Scheduler.queue_manual sampleState aid fd ud = (sampleState, false)) ∧
      (∀ aid : String, (aid, none, none) ∈ sampleState.task_queue.map DownloadTask.key →
        Scheduler.queue_batch sampleState [aid] = (sampleState, 0))) ∧
      Scheduler.queue_manual sampleState "patreon_1" none none = (sampleState, false) := by
  have hmain := c7_queue_dedup sampleState (Reachable.add sampleTask Reachable.init)
  refine ⟨hmain, hmain.2.1 "patreon_1" none none ?_⟩
  simp [sampleState, Scheduler.add_task, initialState, sampleTask, DownloadTask.key]

/-- A filter configuration dict (`src/src/filters.py` `apply_filters` doc):
each recognised key is an `Option` field, `none` meaning the key is absent. -/
structure FilterConfig where
  include_keywords : Option (List String) := none
  exclude_keywords : Option (List String) := none
  require_all_keywords : Option (List String) := none
  require_files : Option Bool := none
  require_attachments : Option Bool := none
  published_after : Option String := none
  published_before : Option String := none
  deriving DecidableEq, Repr

/-- Python truthiness of the whole dict: no keys at all. -/
def FilterConfig.isEmpty (cfg : FilterConfig) : Bool :=
  cfg.include_keywords.isNone && cfg.exclude_keywords.isNone &&
    cfg.require_all_keywords.isNone && cfg.require_files.isNone &&
    cfg.require_attachments.isNone && cfg.published_after.isNone &&
    cfg.published_before.isNone

namespace PostFilter

/-- Lower-cased character list of a string (`str.lower()` of the source,
embedded per-character). -/
def lowerData (s : String) : List Char := s.data.map Char.toLower

/-- Whether the first list is an initial segment of the second. -/
def startsWithChars : List Char → List Char → Bool
  | [], _ => true
  | _ :: _, [] => false
  | a :: as, b :: bs => a == b && startsWithChars as bs

/-- Python's `needle in hay` on strings: contiguous substring test. -/
def containsChars (needle : List Char) : List Char → Bool
  | [] => needle.isEmpty
  | c :: rest => startsWithChars needle (c :: rest) || containsChars needle rest

/-- `PostFilter.contains_keyword` (`src/src/filters.py` lines 11-15):
case-insensitive substring test against `f"{post.title} {post.content}"`. -/
def contains_keyword (post : Post) (keyword : String) : Bool :=
  containsChars (lowerData keyword) (lowerData (post.title ++ " " ++ post.content))

/-- `PostFilter.contains_any_keywords`. -/
def contains_any_keywords (post : Post) (keywords : List String) : Bool :=
  keywords.any (contains_keyword post)

/-- `PostFilter.contains_all_keywords`. -/
def contains_all_keywords (post : Post) (keywords : List String) : Bool :=
  keywords.all (contains_keyword post)

/-- `PostFilter.has_attachments`: `bool(post.attachments)`. -/
def has_attachments (post : Post) : Bool := !post.attachments.isEmpty

/-- `PostFilter.has_any_files`: `bool(post.file or post.attachments)`. -/
def has_any_files (post : Post) : Bool := post.file.isSome || !post.attachments.isEmpty

/-- `PostFilter.published_after` (`src/src/filters.py` lines 47-54):
compare `published.split('T')[0]` with the date string. -/
def published_after (post : Post) (date_str : String) : Bool :=
  let post_date := if strTruthy post.published then (post.published.splitOn "T").headD "" else ""
  decide (pyLt date_str post_date)

/-- `PostFilter.published_before` (`src/src/filters.py` lines 56-63). -/
def published_before (post : Post) (date_str : String) : Bool :=
  let post_date := if strTruthy post.published then (post.published.splitOn "T").headD "" else ""
  decide (pyLt post_date date_str)

/-- One step of the `apply_filters` loop, keyword-list form (`if keywords and
not ok: continue`): the post survives the key iff the key is absent, its list
is empty, or the test passes. -/
def keywordCheck (o : Option (List String)) (ok : List String → Bool) : Bool :=
  match o with
  | some kws => kws.isEmpty || ok kws
  | none => true

/-- One step of the `apply_filters` loop, date form (`if date_str and not ok:
continue`). -/
def dateCheck (o : Option String) (ok : String → Bool) : Bool :=
  match o with
  | some ds => !strTruthy ds || ok ds
  | none => true

/-- The body of the `apply_filters` loop (`src/src/filters.py` lines 94-136):
a post reaches `filtered_posts.append` iff every one of the seven `continue`
guards lets it through. -/
def passes (cfg : FilterConfig) (post : Post) : Bool :=
  keywordCheck cfg.include_keywords (contains_any_keywords post) &&
    keywordCheck cfg.exclude_keywords (fun kws => !contains_any_keywords post kws) &&
    keywordCheck cfg.require_all_keywords (contains_all_keywords post) &&
    (if cfg.require_files.getD false then has_any_files post else true) &&
    (if cfg.require_attachments.getD false then has_attachments post else true) &&
    dateCheck cfg.published_after (published_after post) &&
    dateCheck cfg.published_before (published_before post)

/-- `PostFilter.apply_filters` (`src/src/filters.py` lines 73-138): an empty
config returns the list unchanged, otherwise keep the posts passing every
present filter. -/
def apply_filters (posts : List Post) (cfg : FilterConfig) : List Post :=
  if cfg.isEmpty then posts else posts.filter (passes cfg)

end PostFilter

/-- Modelled from the spec: the filter-config merge of `download_artist` step
4 (spec §4.5.1/§4.9, "global filter merged with artist filter (artist wins
key-by-key)").  The src/ snapshot's `Cache.load_posts` does not carry the
`apply_filters` parameter its callers pass, so the merge-and-apply wiring is
missing from src/ and is modelled here; `PostFilter.apply_filters` itself is
embedded from `src/src/filters.py`. -/
def mergeFilters (g a : FilterConfig) : FilterConfig :=
  { include_keywords := a.include_keywords <|> g.include_keywords,
    exclude_keywords := a.exclude_keywords <|> g.exclude_keywords,
    require_all_keywords := a.require_all_keywords <|> g.require_all_keywords,
    require_files := a.require_files <|> g.require_files,
    require_attachments := a.require_attachments <|> g.require_attachments,
    published_after := a.published_after <|> g.published_after,
    published_before := a.published_before <|> g.published_before }

/-- Modelled from the spec: the filtered working set of `download_artist`
step 4 — the selected posts run through `PostFilter.apply_filters` under the
merged global/artist filter before `download_posts` sees them. -/
def working_set_filtered (global_filter artist_filter : FilterConfig)
    (selected : List Post) : List Post :=
  PostFilter.apply_filters selected (mergeFilters global_filter artist_filter)

/-- The spec's per-key acceptance (§4.9 table), written from the spec's
words: every predicate present in the configuration (with a usable, i.e.
truthy, argument) must accept the post; absent keys do not constrain. -/
def SpecAccepts (cfg : FilterConfig) (p : Post) : Prop :=
  (∀ kws, cfg.include_keywords = some kws → kws ≠ [] →
      PostFilter.contains_any_keywords p kws = true) ∧
    (∀ kws, cfg.exclude_keywords = some kws → kws ≠ [] →
      PostFilter.contains_any_keywords p kws = false) ∧
    (∀ kws, cfg.require_all_keywords = some kws → kws ≠ [] →
      PostFilter.contains_all_keywords p kws = true) ∧
    (cfg.require_files = some true → PostFilter.has_any_files p = true) ∧
    (cfg.require_attachments = some true → PostFilter.has_attachments p = true) ∧
    (∀ ds, cfg.published_after = some ds → ds ≠ "" →
      PostFilter.published_after p ds = true) ∧
    (∀ ds, cfg.published_before = some ds → ds ≠ "" →
      PostFilter.published_before p ds = true)

section FilterLemmas

theorem keywordCheck_iff (o : Option (List String)) (ok : List String → Bool) :
    PostFilter.keywordCheck o ok = true ↔
      ∀ kws, o = some kws → kws ≠ [] → ok kws = true := by
  cases o with
  | none => simp [PostFilter.keywordCheck]
  | some kws =>
    cases kws with
    | nil => simp [PostFilter.keywordCheck]
    | cons a l => simp [PostFilter.keywordCheck]

theorem dateCheck_iff (o : Option String) (ok : String → Bool) :
    PostFilter.dateCheck o ok = true ↔
      ∀ ds, o = some ds → ds ≠ "" → ok ds = true := by
  cases o with
  | none => simp [PostFilter.dateCheck]
  | some ds =>
    by_cases hds : ds = ""
    · subst hds
      simp [PostFilter.dateCheck, strTruthy]
    · simp [PostFilter.dateCheck, strTruthy, hds]

theorem boolFlag_iff (o : Option Bool) (ok : Bool) :
    (if o.getD false then ok else true) = true ↔ (o = some true → ok = true) := by
  cases o with
  | none => simp
  | some b => cases b <;> simp

theorem passes_iff (cfg : FilterConfig) (p : Post) :
    PostFilter.passes cfg p = true ↔ SpecAccepts cfg p := by
  unfold PostFilter.passes SpecAccepts
  simp only [Bool.and_eq_true]
  rw [and_assoc, and_assoc, and_assoc, and_assoc, and_assoc]
  refine and_congr (keywordCheck_iff _ _) (and_congr ?_ (and_congr (keywordCheck_iff _ _)
    (and_congr (boolFlag_iff _ _) (and_congr (boolFlag_iff _ _)
      (and_congr (dateCheck_iff _ _) (dateCheck_iff _ _))))))
  rw [keywordCheck_iff]
  constructor
  · intro h kws hk hne
    have := h kws hk hne
    simpa using this
  · intro h kws hk hne
    simp [h kws hk hne]

theorem specAccepts_of_isEmpty (cfg : FilterConfig) (he : cfg.isEmpty = true) (p : Post) :
    SpecAccepts cfg p := by
  unfold FilterConfig.isEmpty at he
  simp only [Bool.and_eq_true, Option.isNone_iff_eq_none] at he
  obtain ⟨⟨⟨⟨⟨⟨h1, h2⟩, h3⟩, h4⟩, h5⟩, h6⟩, h7⟩ := he
  refine ⟨?_, ?_, ?_, ?_, ?_, ?_, ?_⟩ <;> simp [h1, h2, h3, h4, h5, h6, h7]

end FilterLemmas

/-- Claim C1 (confirmed, modelled wiring): a post reaches the working set
passed to `download_posts` iff it was selected in step 3 and every predicate
present in the merged (artist-over-global) filter configuration accepts it —
AND across keys, absent keys not constraining.  The acceptance tests on the
right-hand side are the embedded `src/src/filters.py` predicates. -/
theorem c1_filter_and_semantics (global_filter artist_filter : FilterConfig)
    (selected : List Post) (p : Post) :
    p ∈ working_set_filtered global_filter artist_filter selected ↔
      p ∈ selected ∧ SpecAccepts (mergeFilters global_filter artist_filter) p := by
  unfold working_set_filtered PostFilter.apply_filters
  by_cases he : (mergeFilters global_filter artist_filter).isEmpty = true
  · rw [if_pos he]
    simp [specAccepts_of_isEmpty _ he p]
  · rw [if_neg he]
    rw [List.mem_filter]
    exact and_congr_right fun _ => passes_iff _ p

namespace Formatter

/-- A character matched by the sanitiser's control-character regex
`[\x00-\x1F\x7F]` (`src/src/formatter.py` line 117). -/
def isCtl (c : Char) : Bool := decide (c.toNat ≤ 0x1F) || decide (c.toNat = 0x7F)

/-- The characters the path sanitiser must eliminate:
`/ \ : * ? " < > |`. -/
def forbiddenChars : List Char := ['/', '\\', ':', '*', '?', '\"', '<', '>', '|']

/-- Whether `c` is one of the forbidden path characters. -/
def isForbidden (c : Char) : Bool := decide (c ∈ forbiddenChars)

/-- `re.sub(r'[\x00-\x1F\x7F]', '', result)`: drop ASCII control
characters. -/
def removeControls (s : List Char) : List Char := s.filter fun c => !isCtl c

/-- `result.replace(char, replacement)` for the single-character patterns of
the sanitiser's `char_map`: every occurrence of `k` becomes `r`. -/
def replaceChar (k : Char) (r : List Char) (s : List Char) : List Char :=
  s.flatMap fun c => if c = k then r else [c]

/-- The sequential `str.replace` loop over a pair list (`for char,
replacement in char_map.items(): result = result.replace(...)`). -/
def foldMap (pairs : List (Char × List Char)) (s : List Char) : List Char :=
  pairs.foldl (fun acc p => replaceChar p.1 p.2 acc) s

/-- The `char_map` of `Formatter._sanitize` (`src/src/formatter.py` lines
120-166), in source order: zero-width and direction marks are removed,
Unicode spaces and `\t\r\n` become plain spaces, and the nine Windows
forbidden characters become their full-width analogues. -/
def charMap : List (Char × List Char) :=
  [ ('\u200B', []), ('\u200C', []), ('\u200D', []), ('\uFEFF', []),
    ('\u200E', []), ('\u200F', []),
    ('\u3000', [' ']), ('\u00A0', [' ']), ('\u2003', [' ']), ('\u2002', [' ']),
    ('\t', [' ']), ('\r', [' ']), ('\n', [' ']),
    ('/', ['\uFF0F']), ('\\', ['\uFF3C']), (':', ['\uFF1A']), ('*', ['\uFF0A']),
    ('?', ['\uFF1F']), ('\"', ['\uFF02']), ('<', ['\uFF1C']), ('>', ['\uFF1E']),
    ('|', ['\uFF5C'])]

/-- All `char_map` replacements applied in order. -/
def applyCharMap (s : List Char) : List Char := foldMap charMap s

/-- `re.sub(r' +', ' ', result)`: collapse runs of spaces to a single
space. -/
def collapseSpaces : List Char → List Char
  | [] => []
  | [c] => [c]
  | a :: b :: rest =>
    if a == ' ' && b == ' ' then collapseSpaces (b :: rest)
    else a :: collapseSpaces (b :: rest)

/-- A character stripped from the ends by `result.strip(' .')`. -/
def isStripChar (c : Char) : Bool := c == ' ' || c == '.'

/-- `result.strip(' .')`: drop spaces and dots from both ends. -/
def stripEnds (s : List Char) : List Char :=
  ((s.dropWhile isStripChar).reverse.dropWhile isStripChar).reverse

/-- The character-level pipeline of `Formatter._sanitize` after the empty
check: remove controls, apply the replacement map, collapse spaces, strip
the ends. -/
def sanitizeChars (s : List Char) : List Char :=
  stripEnds (collapseSpaces (applyCharMap (removeControls s)))

/-- `src/src/formatter.py` `Formatter._sanitize`: falsy input becomes
`"unknown"`, otherwise the pipeline result (`result or "unknown"`, i.e. the
empty result also falls back to `"unknown"`). -/
def sanitize (text : String) : String :=
  if text = "" then "unknown"
  else if String.mk (sanitizeChars text.data) = "" then "unknown"
  else String.mk (sanitizeChars text.data)

end Formatter

section SanitizeLemmas

open Formatter

theorem mem_replaceChar {x k : Char} {r s : List Char} (h : x ∈ replaceChar k r s) :
    x ∈ r ∨ (x ∈ s ∧ x ≠ k) := by
  unfold replaceChar at h
  rcases List.mem_flatMap.mp h with ⟨c, hc, hx⟩
  by_cases hck : c = k
  · rw [if_pos hck] at hx
    exact Or.inl hx
  · rw [if_neg hck] at hx
    rw [List.mem_singleton] at hx
    subst hx
    exact Or.inr ⟨hc, hck⟩

theorem replaceChar_not_mem {c k : Char} {r s : List Char} (hs : c ∉ s) (hr : c ∉ r) :
    c ∉ replaceChar k r s := by
  intro h
  rcases mem_replaceChar h with h | ⟨h, -⟩
  · exact hr h
  · exact hs h

theorem replaceChar_key_not_mem {k : Char} {r s : List Char} (hr : k ∉ r) :
    k ∉ replaceChar k r s := by
  intro h
  rcases mem_replaceChar h with h | ⟨-, h⟩
  · exact hr h
  · exact h rfl

theorem foldMap_nil (s : List Char) : foldMap [] s = s := rfl

theorem foldMap_cons (p : Char × List Char) (pairs : List (Char × List Char))
    (s : List Char) : foldMap (p :: pairs) s = foldMap pairs (replaceChar p.1 p.2 s) := rfl

theorem foldMap_pred (P : Char → Prop) :
    ∀ (pairs : List (Char × List Char)), (∀ p ∈ pairs, ∀ x ∈ p.2, P x) →
      ∀ s, (∀ x ∈ s, P x) → ∀ x ∈ foldMap pairs s, P x := by
  intro pairs
  induction pairs with
  | nil => intro _ s hs x hx; exact hs x hx
  | cons p rest ih =>
    intro hr s hs x hx
    rw [foldMap_cons] at hx
    refine ih (fun q hq => hr q (List.mem_cons_of_mem p hq)) _ ?_ x hx
    intro y hy
    rcases mem_replaceChar hy with hy | ⟨hy, -⟩
    · exact hr p (List.mem_cons_self p rest) y hy
    · exact hs y hy

theorem foldMap_not_mem (c : Char) :
    ∀ (pairs : List (Char × List Char)), (∀ p ∈ pairs, c ∉ p.2) →
      ∀ s, c ∉ s → c ∉ foldMap pairs s := by
  intro pairs
  induction pairs with
  | nil => intro _ s hs; exact hs
  | cons p rest ih =>
    intro hr s hs
    rw [foldMap_cons]
    exact ih (fun q hq => hr q (List.mem_cons_of_mem p hq)) _
      (replaceChar_not_mem hs (hr p (List.mem_cons_self p rest)))

theorem foldMap_key_not_mem (c : Char) :
    ∀ (pairs : List (Char × List Char)), (∃ p ∈ pairs, p.1 = c) →
      (∀ p ∈ pairs, c ∉ p.2) → ∀ s, c ∉ foldMap pairs s := by
  intro pairs
  induction pairs with
  | nil => rintro ⟨p, hp, -⟩; cases hp
  | cons q rest ih =>
    rintro ⟨p, hp, hpc⟩ hr s
    rw [foldMap_cons]
    rcases List.mem_cons.mp hp with hpq | hp
    · subst hpq
      subst hpc
      exact foldMap_not_mem _ rest (fun q hq => hr q (List.mem_cons_of_mem p hq)) _
        (replaceChar_key_not_mem (hr p (List.mem_cons_self p rest)))
    · exact ih ⟨p, hp, hpc⟩ (fun q' hq => hr q' (List.mem_cons_of_mem q hq)) _

theorem charMap_repl_not_ctl : ∀ p ∈ charMap, ∀ x ∈ p.2, isCtl x = false := by decide

theorem charMap_keys_not_in_repl : ∀ p ∈ charMap, ∀ q ∈ charMap, p.1 ∉ q.2 := by decide

theorem forbidden_is_key : ∀ c ∈ forbiddenChars, ∃ p ∈ charMap, p.1 = c := by decide

theorem forbidden_not_in_repl : ∀ c ∈ forbiddenChars, ∀ p ∈ charMap, c ∉ p.2 := by decide

theorem applyCharMap_no_forbidden (s : List Char) :
    ∀ x ∈ applyCharMap s, isForbidden x = false := by
  intro x hx
  by_contra h
  have hmem : x ∈ forbiddenChars :=
    of_decide_eq_true ((Bool.not_eq_false _).mp h)
  exact foldMap_key_not_mem x charMap (forbidden_is_key x hmem)
    (forbidden_not_in_repl x hmem) s hx

theorem applyCharMap_no_ctl (s : List Char) :
    ∀ x ∈ applyCharMap (removeControls s), isCtl x = false := by
  refine foldMap_pred _ charMap charMap_repl_not_ctl _ ?_
  intro x hx
  have := List.of_mem_filter hx
  simpa using this

theorem applyCharMap_no_keys (s : List Char) :
    ∀ x ∈ applyCharMap s, ∀ p ∈ charMap, x ≠ p.1 := by
  intro x hx p hp he
  subst he
  exact foldMap_key_not_mem p.1 charMap ⟨p, hp, rfl⟩
    (charMap_keys_not_in_repl p hp) s hx

theorem collapseSpaces_sub : ∀ (s : List Char), ∀ x ∈ collapseSpaces s, x ∈ s := by
  intro s
  induction s with
  | nil => intro x hx; cases hx
  | cons a tail ih =>
    cases tail with
    | nil => intro x hx; simpa [collapseSpaces] using hx
    | cons b rest =>
      intro x hx
      by_cases hsp : (a == ' ' && b == ' ') = true
      · rw [collapseSpaces, if_pos hsp] at hx
        exact List.mem_cons_of_mem a (ih x hx)
      · rw [collapseSpaces, if_neg hsp] at hx
        rcases List.mem_cons.mp hx with hx | hx
        · exact hx ▸ List.mem_cons_self a _
        · exact List.mem_cons_of_mem a (ih x hx)

theorem dropWhile_suffix (p : Char → Bool) :
    ∀ l : List Char, ∃ l1, l = l1 ++ l.dropWhile p := by
  intro l
  induction l with
  | nil => exact ⟨[], rfl⟩
  | cons a rest ih =>
    by_cases hp : p a = true
    · rcases ih with ⟨l1, hl⟩
      refine ⟨a :: l1, ?_⟩
      rw [List.dropWhile_cons_of_pos hp, List.cons_append]
      exact congrArg (a :: ·) hl
    · refine ⟨[], ?_⟩
      rw [List.dropWhile_cons_of_neg (by simpa using hp), List.nil_append]

theorem mem_dropWhile (p : Char → Bool) (l : List Char) {x : Char}
    (h : x ∈ l.dropWhile p) : x ∈ l := by
  rcases dropWhile_suffix p l with ⟨l1, hl⟩
  rw [hl]
  exact List.mem_append_right l1 h

theorem mem_stripEnds (l : List Char) {x : Char} (h : x ∈ stripEnds l) : x ∈ l := by
  unfold stripEnds at h
  rw [List.mem_reverse] at h
  have h2 := mem_dropWhile _ _ h
  rw [List.mem_reverse] at h2
  exact mem_dropWhile _ _ h2

theorem sanitizeChars_mem (s : List Char) {x : Char} (h : x ∈ sanitizeChars s) :
    x ∈ applyCharMap (removeControls s) := by
  unfold sanitizeChars at h
  exact collapseSpaces_sub _ x (mem_stripEnds _ h)

theorem sanitizeChars_good (s : List Char) :
    ∀ x ∈ sanitizeChars s, isForbidden x = false ∧ isCtl x = false := by
  intro x hx
  have hm := sanitizeChars_mem s hx
  exact ⟨applyCharMap_no_forbidden _ x hm, applyCharMap_no_ctl s x hm⟩

theorem data_mk (l : List Char) : (String.mk l).data = l := rfl

end SanitizeLemmas

set_option maxHeartbeats 2000000 in
/-- Claim C8 (confirmed): the path sanitiser is a total function (the
embedding is a Lean function, so it terminates and raises nothing), it never
returns the empty string — falsy input and an all-stripped result both fall
back to `"unknown"` — and its result contains none of `/ \ : * ? " < > |`
and no ASCII control characters. -/
theorem c8_sanitize_total (s : String) :
    Formatter.sanitize s ≠ "" ∧
      ∀ c ∈ (Formatter.sanitize s).data,
        Formatter.isForbidden c = false ∧ Formatter.isCtl c = false := by
  unfold Formatter.sanitize
  split_ifs with h0 hr
  · exact ⟨by decide, by decide⟩
  · exact ⟨by decide, by decide⟩
  · refine ⟨hr, ?_⟩
    rw [data_mk]
    exact sanitizeChars_good s.data

section IdempotenceLemmas

open Formatter

/-- No two consecutive spaces anywhere in the list. -/
def noTwoSpaces : List Char → Bool
  | a :: b :: rest => !(a == ' ' && b == ' ') && noTwoSpaces (b :: rest)
  | _ => true

theorem noTwoSpaces_tail (a : Char) (l : List Char) (h : noTwoSpaces (a :: l) = true) :
    noTwoSpaces l = true := by
  cases l with
  | nil => rfl
  | cons b r =>
    simp only [noTwoSpaces, Bool.and_eq_true] at h
    exact h.2

theorem noTwoSpaces_dropWhile (p : Char → Bool) (l : List Char)
    (h : noTwoSpaces l = true) : noTwoSpaces (l.dropWhile p) = true := by
  induction l with
  | nil => exact h
  | cons a r ih =>
    by_cases hp : p a = true
    · rw [List.dropWhile_cons_of_pos hp]
      exact ih (noTwoSpaces_tail a r h)
    · rw [List.dropWhile_cons_of_neg (by simpa using hp)]
      exact h

theorem noTwoSpaces_append_left (l1 l2 : List Char)
    (h : noTwoSpaces (l1 ++ l2) = true) : noTwoSpaces l1 = true := by
  induction l1 with
  | nil => rfl
  | cons a t ih =>
    cases t with
    | nil => rfl
    | cons b r =>
      rw [List.cons_append, List.cons_append] at h
      simp only [noTwoSpaces, Bool.and_eq_true] at h ⊢
      exact ⟨h.1, ih (by rw [List.cons_append]; exact h.2)⟩

theorem head_collapse : ∀ (rest : List Char) (b : Char),
    ∃ t, collapseSpaces (b :: rest) = b :: t := by
  intro rest
  induction rest with
  | nil => intro b; exact ⟨[], rfl⟩
  | cons c r ih =>
    intro b
    by_cases hsp : (b == ' ' && c == ' ') = true
    · rcases ih c with ⟨t, ht⟩
      have hb : b = ' ' := by
        have := ((Bool.and_eq_true _ _).mp hsp).1
        exact eq_of_beq this
      have hc : c = ' ' := by
        have := ((Bool.and_eq_true _ _).mp hsp).2
        exact eq_of_beq this
      refine ⟨t, ?_⟩
      simp only [collapseSpaces, if_pos hsp]
      rw [ht, hb, hc]
    · exact ⟨collapseSpaces (c :: r), by simp only [collapseSpaces, if_neg hsp]⟩

theorem collapse_noTwoSpaces : ∀ s : List Char, noTwoSpaces (collapseSpaces s) = true := by
  intro s
  induction s with
  | nil => rfl
  | cons a t ih =>
    cases t with
    | nil => rfl
    | cons b r =>
      by_cases hsp : (a == ' ' && b == ' ') = true
      · simp only [collapseSpaces, if_pos hsp]
        exact ih
      · simp only [collapseSpaces, if_neg hsp]
        rcases head_collapse r b with ⟨t', ht⟩
        rw [ht]
        simp only [noTwoSpaces, Bool.and_eq_true, Bool.not_eq_true']
        refine ⟨(Bool.not_eq_true _).mp hsp, ?_⟩
        rw [← ht]
        exact ih

theorem collapse_id : ∀ s : List Char, noTwoSpaces s = true → collapseSpaces s = s := by
  intro s
  induction s with
  | nil => intro _; rfl
  | cons a t ih =>
    cases t with
    | nil => intro _; rfl
    | cons b r =>
      intro h
      simp only [noTwoSpaces, Bool.and_eq_true, Bool.not_eq_true'] at h
      simp only [collapseSpaces, h.1, Bool.false_eq_true, if_false]
      exact congrArg (a :: ·) (ih h.2)

theorem replaceChar_id (k : Char) (r : List Char) :
    ∀ s : List Char, (∀ x ∈ s, x ≠ k) → replaceChar k r s = s := by
  intro s
  induction s with
  | nil => intro _; rfl
  | cons c t ih =>
    intro h
    unfold replaceChar
    rw [List.flatMap_cons, if_neg (h c (List.mem_cons_self c t)), List.singleton_append]
    exact congrArg (c :: ·) (ih fun x hx => h x (List.mem_cons_of_mem c hx))

theorem foldMap_id : ∀ (pairs : List (Char × List Char)) (s : List Char),
    (∀ p ∈ pairs, ∀ x ∈ s, x ≠ p.1) → foldMap pairs s = s := by
  intro pairs
  induction pairs with
  | nil => intro s _; rfl
  | cons p rest ih =>
    intro s h
    rw [foldMap_cons, replaceChar_id p.1 p.2 s (h p (List.mem_cons_self p rest))]
    exact ih s fun q hq => h q (List.mem_cons_of_mem p hq)

theorem dropWhile_head_false (p : Char → Bool) :
    ∀ (l : List Char) (a : Char) (t : List Char), l.dropWhile p = a :: t → p a = false := by
  intro l
  induction l with
  | nil => intro a t h; cases h
  | cons c r ih =>
    intro a t h
    by_cases hp : p c = true
    · rw [List.dropWhile_cons_of_pos hp] at h
      exact ih a t h
    · rw [List.dropWhile_cons_of_neg (by simpa using hp)] at h
      cases h
      simpa using hp

theorem dropWhile_idem (p : Char → Bool) (l : List Char) :
    (l.dropWhile p).dropWhile p = l.dropWhile p := by
  cases hd : l.dropWhile p with
  | nil => rfl
  | cons a t =>
    exact List.dropWhile_cons_of_neg (by simp [dropWhile_head_false p l a t hd])

theorem stripEnds_decomp (l : List Char) :
    ∃ pre, l.dropWhile isStripChar = stripEnds l ++ pre := by
  rcases dropWhile_suffix isStripChar (l.dropWhile isStripChar).reverse with ⟨l3, h⟩
  have hq : l.dropWhile isStripChar =
      (l3 ++ (l.dropWhile isStripChar).reverse.dropWhile isStripChar).reverse := by
    rw [← h, List.reverse_reverse]
  rw [List.reverse_append] at hq
  exact ⟨l3.reverse, by unfold stripEnds; exact hq⟩

theorem noTwoSpaces_stripEnds (l : List Char) (h : noTwoSpaces l = true) :
    noTwoSpaces (stripEnds l) = true := by
  rcases stripEnds_decomp l with ⟨pre, hd⟩
  have h1 := noTwoSpaces_dropWhile isStripChar l h
  rw [hd] at h1
  exact noTwoSpaces_append_left _ _ h1

theorem stripEnds_head (l : List Char) (a : Char) (t : List Char)
    (h : stripEnds l = a :: t) : isStripChar a = false := by
  rcases stripEnds_decomp l with ⟨pre, hd⟩
  rw [h, List.cons_append] at hd
  exact dropWhile_head_false _ l a (t ++ pre) hd

theorem stripEnds_idem (l : List Char) : stripEnds (stripEnds l) = stripEnds l := by
  have hA : (stripEnds l).dropWhile isStripChar = stripEnds l := by
    cases hs : stripEnds l with
    | nil => rfl
    | cons a t => exact List.dropWhile_cons_of_neg (by simp [stripEnds_head l a t hs])
  have hB : (stripEnds l).reverse =
      (l.dropWhile isStripChar).reverse.dropWhile isStripChar := by
    unfold stripEnds
    rw [List.reverse_reverse]
  calc stripEnds (stripEnds l)
      = (((stripEnds l).dropWhile isStripChar).reverse.dropWhile isStripChar).reverse := rfl
    _ = ((stripEnds l).reverse.dropWhile isStripChar).reverse := by rw [hA]
    _ = (((l.dropWhile isStripChar).reverse.dropWhile isStripChar).dropWhile
          isStripChar).reverse := by rw [hB]
    _ = ((l.dropWhile isStripChar).reverse.dropWhile isStripChar).reverse := by
          rw [dropWhile_idem]
    _ = stripEnds l := rfl

theorem sanitizeChars_fixed (s : List Char) :
    sanitizeChars (sanitizeChars s) = sanitizeChars s := by
  have hctl : ∀ x ∈ sanitizeChars s, isCtl x = false :=
    fun x hx => (sanitizeChars_good s x hx).2
  have h1 : removeControls (sanitizeChars s) = sanitizeChars s :=
    List.filter_eq_self.mpr fun a ha => by rw [hctl a ha]; rfl
  have h2 : applyCharMap (sanitizeChars s) = sanitizeChars s :=
    foldMap_id charMap _ fun p hp x hx =>
      applyCharMap_no_keys _ x (sanitizeChars_mem s hx) p hp
  have hnts : noTwoSpaces (sanitizeChars s) = true := by
    unfold sanitizeChars
    exact noTwoSpaces_stripEnds _ (collapse_noTwoSpaces _)
  have h3 : collapseSpaces (sanitizeChars s) = sanitizeChars s := collapse_id _ hnts
  have h4 : stripEnds (sanitizeChars s) = sanitizeChars s := by
    unfold sanitizeChars
    exact stripEnds_idem _
  show stripEnds (collapseSpaces (applyCharMap (removeControls (sanitizeChars s)))) = _
  rw [h1, h2, h3, h4]

end IdempotenceLemmas

set_option maxHeartbeats 2000000 in
/-- On the literal fallback the sanitiser is already a fixed point. -/
theorem sanitize_unknown : Formatter.sanitize "unknown" = "unknown" := by decide

set_option maxHeartbeats 400000 in
/-- Claim C10 (confirmed): the path sanitiser is idempotent — applying
`Formatter._sanitize` to an already-sanitised component changes nothing. -/
theorem c10_sanitize_idem (s : String) :
    Formatter.sanitize (Formatter.sanitize s) = Formatter.sanitize s := by
  by_cases h0 : s = ""
  · rw [show Formatter.sanitize s = "unknown" by unfold Formatter.sanitize; rw [if_pos h0]]
    exact sanitize_unknown
  · by_cases hr : String.mk (Formatter.sanitizeChars s.data) = ""
    · rw [show Formatter.sanitize s = "unknown" by
        unfold Formatter.sanitize; rw [if_neg h0, if_pos hr]]
      exact sanitize_unknown
    · have hs : Formatter.sanitize s = String.mk (Formatter.sanitizeChars s.data) := by
        unfold Formatter.sanitize
        rw [if_neg h0, if_neg hr]
      rw [hs]
      unfold Formatter.sanitize
      rw [if_neg hr, data_mk, sanitizeChars_fixed, if_neg hr]

end AKD
